import Mathlib

/-!
Verification of the benchmark-log parser in `src/archive/a.py`.

The script's core function is

```python
def parse_benchmark_log(file_path):
    with open(file_path, 'r') as file:
        data = file.read()
    sizes = re.findall(r'size=(\d+)', data)
    elapsed = re.findall(r'elapsed: ([\d.]+)', data)
    rate = re.findall(r'rate: ([\d.]+)', data)
    sizes = list(map(int, sizes))
    elapsed = list(map(float, elapsed))
    rate = list(map(float, rate))
    return sizes, elapsed, rate
```

We embed the function over the file's contents (a `List Char`); file IO is
outside the model.  All three regular expressions have the same shape: a
literal prefix followed by a greedy, non-empty run of characters from a
one-character class (`\d` respectively `[\d.]`).  `re.findall` collects the
leftmost non-overlapping matches in order of appearance, returning the text of
the single capture group; we implement that scan directly for this pattern
shape (`findallLC`, "findall for literal-then-class patterns").  Digits are
modelled as ASCII `0`-`9`, the alphabet of the log format.

Numeric conversion: `int` on a capture of `(\d+)` is total (`strToNat`); we
also keep a guarded `parseInt` recording the domain on which Python's `int`
succeeds for such strings.  Python's `float` on a string drawn from `[\d.]+`
succeeds exactly when the string contains at least one digit and at most one
dot; `parseFloat` models it, returning the exact decimal value as a rational
(IEEE rounding of that value is abstracted away; distinct claims never hinge
on it).  An unhandled Python exception is modelled as `none`.
-/

namespace BenchLog

/-- The character class `[\d.]` of the `elapsed:` and `rate:` patterns. -/
def isDigitDot (c : Char) : Bool := c.isDigit || c = '.'

/-- Match a literal string at the head of `s`; on success return the rest. -/
def matchLit : List Char → List Char → Option (List Char)
  | [], s => some s
  | _ :: _, [] => none
  | l :: ls, c :: cs => if l = c then matchLit ls cs else none

/-- One left-to-right scan of `re.findall` for a pattern
`lit(κ+)` with `κ` a character class `p`: at each position, if the literal
matches and is followed by at least one `p`-character, emit the maximal run of
`p`-characters as the capture and resume after it; otherwise advance one
character.  `fuel` bounds the recursion; `s.length` is always enough. -/
def findallFuel (lit : List Char) (p : Char → Bool) : Nat → List Char → List (List Char)
  | 0, _ => []
  | _ + 1, [] => []
  | fuel + 1, c :: rest =>
    match matchLit lit (c :: rest) with
    | some after =>
      if after.takeWhile p = [] then findallFuel lit p fuel rest
      else after.takeWhile p :: findallFuel lit p fuel (after.dropWhile p)
    | none => findallFuel lit p fuel rest

/-- The scan of `re.findall` for a literal-then-class pattern over the whole
text. -/
def findallLC (lit : List Char) (p : Char → Bool) (s : List Char) : List (List Char) :=
  findallFuel lit p s.length s

/-- The captures of `re.findall(r'size=(\d+)', data)`. -/
def rawSizes (data : List Char) : List (List Char) :=
  findallLC ("size=".toList) Char.isDigit data

/-- The captures of `re.findall(r'elapsed: ([\d.]+)', data)`. -/
def rawElapsed (data : List Char) : List (List Char) :=
  findallLC ("elapsed: ".toList) isDigitDot data

/-- The captures of `re.findall(r'rate: ([\d.]+)', data)`. -/
def rawRate (data : List Char) : List (List Char) :=
  findallLC ("rate: ".toList) isDigitDot data

/-- Value of a digit string, most significant digit first. -/
def strToNat (s : List Char) : Nat :=
  s.foldl (fun n c => 10 * n + (c.toNat - 48)) 0

/-- Python's `int` on the strings the pipeline can feed it: it succeeds
exactly on non-empty all-digit strings (signs, spaces and underscores never
occur in a capture of `(\d+)`). -/
def parseInt (s : List Char) : Option Nat :=
  if s ≠ [] ∧ s.all Char.isDigit then some (strToNat s) else none

/-- The digits before the (first) dot of a `[\d.]+` string. -/
def intPart (s : List Char) : List Char := s.takeWhile (fun c => c ≠ '.')

/-- The characters after the (first) dot of a `[\d.]+` string. -/
def fracPart (s : List Char) : List Char := (s.dropWhile (fun c => c ≠ '.')).drop 1

/-- The exact decimal value `intpart.fracpart` of a well-formed `[\d.]+`
string, as a rational. -/
def decVal (s : List Char) : ℚ :=
  (strToNat (intPart s) : ℚ) + (strToNat (fracPart s) : ℚ) / 10 ^ (fracPart s).length

/-- Python's `float` on a string drawn from the class `[\d.]+`: it succeeds
exactly when the string has at least one digit and at most one dot, and then
denotes the exact decimal value `intpart.fracpart` (returned as a rational;
the subsequent IEEE rounding is abstracted away). -/
def parseFloat (s : List Char) : Option ℚ :=
  if s.all isDigitDot ∧ s.any Char.isDigit ∧ s.count '.' ≤ 1 then
    some (decVal s)
  else none

/-- Python's `list(map(f, l))` where `f` may raise: `none` models the
exception propagating out of the parser. -/
def mapOpt (f : α → Option β) : List α → Option (List β)
  | [] => some []
  | a :: as =>
    match f a, mapOpt f as with
    | some b, some bs => some (b :: bs)
    | _, _ => none

/-- The function `parse_benchmark_log` over the file's contents: the three
independent scans followed by the `int`/`float` conversions.  A conversion
failure (an uncaught Python exception) is `none`. -/
def parse_benchmark_log (data : List Char) : Option (List Nat × List ℚ × List ℚ) :=
  match mapOpt parseInt (rawSizes data), mapOpt parseFloat (rawElapsed data),
        mapOpt parseFloat (rawRate data) with
  | some s, some e, some r => some (s, e, r)
  | _, _, _ => none

/-- Declarative reading of one match of the pattern `lit(κ+)` at the head of
`s`: `s` is the literal, then the non-empty capture of class-`p` characters,
then the rest, and the capture is maximal (the rest does not begin with a
`p`-character). -/
def MatchHead (lit : List Char) (p : Char → Bool) (s cap rest : List Char) : Prop :=
  s = lit ++ cap ++ rest ∧ cap ≠ [] ∧ (∀ c ∈ cap, p c = true) ∧
    (∀ c, rest.head? = some c → p c = false)

/-- Declarative reading of `re.findall` for the pattern `lit(κ+)`: the capture
list collects, left to right, the non-overlapping matches in order of
appearance — at a position where a match starts, its capture is emitted and
scanning resumes after the match; at a position where none starts, scanning
advances one character. -/
inductive Findall (lit : List Char) (p : Char → Bool) : List Char → List (List Char) → Prop
  | nil : Findall lit p [] []
  | found {s cap rest caps} : MatchHead lit p s cap rest → Findall lit p rest caps →
      Findall lit p s (cap :: caps)
  | skip {c s caps} : (∀ cap rest, ¬ MatchHead lit p (c :: s) cap rest) →
      Findall lit p s caps → Findall lit p (c :: s) caps

/-! Basic lemmas about the scanner. -/

/-- Matching a literal succeeds exactly when it is a prefix, and then returns
the remainder. -/
theorem matchLit_append : ∀ (lit s t : List Char), matchLit lit s = some t ↔ s = lit ++ t
  | [], s, t => by simp [matchLit]
  | l :: ls, [], t => by simp [matchLit]
  | l :: ls, c :: cs, t => by
    by_cases h : l = c
    · subst h
      simp [matchLit, matchLit_append ls cs t]
    · simp only [matchLit, if_neg h, List.cons_append]
      constructor
      · intro hc; exact absurd hc (by simp)
      · intro hc; exact absurd (List.head_eq_of_cons_eq hc).symm h

/-- Length bookkeeping for a successful literal match. -/
theorem length_of_matchLit {lit s t : List Char} (h : matchLit lit s = some t) :
    s.length = lit.length + t.length := by
  rw [(matchLit_append lit s t).1 h]
  simp

/-- After a literal match followed by a non-empty capture, the unscanned rest
of `c :: rest` is strictly shorter than `rest` plus the head. -/
theorem dropWhile_length_le {lit : List Char} {p : Char → Bool} {c : Char}
    {rest after : List Char} (h : matchLit lit (c :: rest) = some after)
    (h2 : after.takeWhile p ≠ []) : (after.dropWhile p).length ≤ rest.length := by
  have hlen : (c :: rest).length = lit.length + after.length := length_of_matchLit h
  have hsplit : (after.takeWhile p).length + (after.dropWhile p).length = after.length := by
    rw [← List.length_append, List.takeWhile_append_dropWhile]
  have hpos : 1 ≤ (after.takeWhile p).length := by
    cases htw : after.takeWhile p with
    | nil => exact absurd htw h2
    | cons _ _ => simp
  simp only [List.length_cons] at hlen
  omega

/-- Fuel is irrelevant once it dominates the length of the text. -/
theorem findallFuel_congr (lit : List Char) (p : Char → Bool) :
    ∀ (f1 : Nat) {f2 : Nat} {s : List Char}, s.length ≤ f1 → s.length ≤ f2 →
      findallFuel lit p f1 s = findallFuel lit p f2 s := by
  intro f1
  induction f1 with
  | zero =>
    intro f2 s h1 _
    have hs : s = [] := List.eq_nil_of_length_eq_zero (Nat.le_zero.mp h1)
    subst hs
    cases f2 <;> simp [findallFuel]
  | succ f ih =>
    intro f2 s h1 h2
    cases s with
    | nil => cases f2 <;> simp [findallFuel]
    | cons c rest =>
      cases f2 with
      | zero => simp at h2
      | succ f2' =>
        have hr1 : rest.length ≤ f := Nat.le_of_succ_le_succ h1
        have hr2 : rest.length ≤ f2' := Nat.le_of_succ_le_succ h2
        simp only [findallFuel]
        cases hm : matchLit lit (c :: rest) with
        | none => exact ih hr1 hr2
        | some after =>
          by_cases htw : after.takeWhile p = []
          · simp only [htw, if_pos rfl]
            exact ih hr1 hr2
          · simp only [if_neg htw]
            have hdw := dropWhile_length_le hm htw
            exact congrArg (after.takeWhile p :: ·) (ih (hdw.trans hr1) (hdw.trans hr2))

/-- The scan of the empty text is empty. -/
theorem findallLC_nil (lit : List Char) (p : Char → Bool) : findallLC lit p [] = [] := rfl

/-- Step: no literal match at the head means the scan advances one character. -/
theorem findallLC_cons_none {lit : List Char} {p : Char → Bool} {c : Char}
    {rest : List Char} (h : matchLit lit (c :: rest) = none) :
    findallLC lit p (c :: rest) = findallLC lit p rest := by
  show findallFuel lit p (rest.length + 1) (c :: rest) = _
  simp only [findallFuel, h]
  rfl

/-- Step: a literal match with an empty candidate capture is not a match of
the whole pattern, so the scan advances one character. -/
theorem findallLC_cons_skip {lit : List Char} {p : Char → Bool} {c : Char}
    {rest after : List Char} (h : matchLit lit (c :: rest) = some after)
    (h2 : after.takeWhile p = []) :
    findallLC lit p (c :: rest) = findallLC lit p rest := by
  show findallFuel lit p (rest.length + 1) (c :: rest) = _
  simp only [findallFuel, h, if_pos h2]
  rfl

/-- Step: a full match at the head emits the greedy capture and resumes after
it. -/
theorem findallLC_cons_found {lit : List Char} {p : Char → Bool} {c : Char}
    {rest after : List Char} (h : matchLit lit (c :: rest) = some after)
    (h2 : after.takeWhile p ≠ []) :
    findallLC lit p (c :: rest) =
      after.takeWhile p :: findallLC lit p (after.dropWhile p) := by
  show findallFuel lit p (rest.length + 1) (c :: rest) = _
  simp only [findallFuel, h, if_neg h2]
  exact congrArg (after.takeWhile p :: ·)
    (findallFuel_congr lit p rest.length (dropWhile_length_le h h2) le_rfl)

/-! Soundness of the scanner for the declarative match semantics. -/

/-- A character surviving `dropWhile p` at the front fails `p`. -/
theorem head_dropWhile_false {p : Char → Bool} :
    ∀ (l : List Char) {c : Char}, (l.dropWhile p).head? = some c → p c = false := by
  intro l
  induction l with
  | nil => intro c h; simp [List.dropWhile] at h
  | cons a as ih =>
    intro c h
    rw [List.dropWhile_cons] at h
    by_cases hpa : p a
    · rw [if_pos hpa] at h
      exact ih h
    · rw [if_neg hpa] at h
      simp only [List.head?_cons, Option.some.injEq] at h
      subst h
      exact Bool.not_eq_true _ ▸ (by simpa using hpa)

/-- A successful step of the scanner is a declarative match at the head. -/
theorem matchHead_of {lit : List Char} {p : Char → Bool} {c : Char}
    {rest after : List Char} (h : matchLit lit (c :: rest) = some after)
    (h2 : after.takeWhile p ≠ []) :
    MatchHead lit p (c :: rest) (after.takeWhile p) (after.dropWhile p) := by
  refine ⟨?_, h2, ?_, ?_⟩
  · rw [(matchLit_append lit (c :: rest) after).1 h, List.append_assoc,
      List.takeWhile_append_dropWhile]
  · intro x hx
    exact List.mem_takeWhile_imp hx
  · intro x hx
    exact head_dropWhile_false after hx

/-- When the literal does not match at the head, no declarative match starts
there. -/
theorem no_matchHead_of_none {lit : List Char} {p : Char → Bool} {c : Char}
    {rest : List Char} (h : matchLit lit (c :: rest) = none) :
    ∀ cap rest2, ¬ MatchHead lit p (c :: rest) cap rest2 := by
  rintro cap rest2 ⟨heq, _, _, _⟩
  have h2 : matchLit lit (c :: rest) = some (cap ++ rest2) :=
    (matchLit_append lit (c :: rest) (cap ++ rest2)).2 (by rw [heq, List.append_assoc])
  rw [h] at h2
  cases h2

/-- When the literal matches but no class character follows, no declarative
match starts at the head. -/
theorem no_matchHead_of_empty {lit : List Char} {p : Char → Bool} {c : Char}
    {rest after : List Char} (h : matchLit lit (c :: rest) = some after)
    (h2 : after.takeWhile p = []) :
    ∀ cap rest2, ¬ MatchHead lit p (c :: rest) cap rest2 := by
  rintro cap rest2 ⟨heq, hne, hall, _⟩
  have h3 : matchLit lit (c :: rest) = some (cap ++ rest2) :=
    (matchLit_append lit (c :: rest) (cap ++ rest2)).2 (by rw [heq, List.append_assoc])
  rw [h] at h3
  injection h3 with h3
  subst h3
  cases cap with
  | nil => exact hne rfl
  | cons d ds =>
    have hpd : p d = true := hall d (by simp)
    simp [List.takeWhile_cons, hpd] at h2

/-- Bounded-length induction behind `findall_sound`. -/
theorem findall_sound_aux (lit : List Char) (p : Char → Bool) :
    ∀ (n : Nat) (s : List Char), s.length ≤ n → Findall lit p s (findallLC lit p s) := by
  intro n
  induction n with
  | zero =>
    intro s h
    have hs : s = [] := List.eq_nil_of_length_eq_zero (Nat.le_zero.mp h)
    subst hs
    exact Findall.nil
  | succ n ih =>
    intro s h
    cases s with
    | nil => exact Findall.nil
    | cons c rest =>
      have hr : rest.length ≤ n := Nat.le_of_succ_le_succ h
      cases hm : matchLit lit (c :: rest) with
      | none =>
        rw [findallLC_cons_none hm]
        exact Findall.skip (no_matchHead_of_none hm) (ih rest hr)
      | some after =>
        by_cases htw : after.takeWhile p = []
        · rw [findallLC_cons_skip hm htw]
          exact Findall.skip (no_matchHead_of_empty hm htw) (ih rest hr)
        · rw [findallLC_cons_found hm htw]
          exact Findall.found (matchHead_of hm htw)
            (ih _ ((dropWhile_length_le hm htw).trans hr))

/-- The scanner computes exactly the declarative leftmost non-overlapping
matches, in order of appearance. -/
theorem findall_sound (lit : List Char) (p : Char → Bool) (s : List Char) :
    Findall lit p s (findallLC lit p s) :=
  findall_sound_aux lit p s.length s le_rfl

/-- Every capture collected by a declarative scan is a non-empty string of
class characters. -/
theorem findall_caps {lit : List Char} {p : Char → Bool} {s : List Char}
    {caps : List (List Char)} (h : Findall lit p s caps) :
    ∀ cap ∈ caps, cap ≠ [] ∧ ∀ c ∈ cap, p c = true := by
  induction h with
  | nil => intro cap hc; cases hc
  | found hm _ ih =>
    intro cap hc
    rcases List.mem_cons.mp hc with hceq | hct
    · subst hceq
      exact ⟨hm.2.1, hm.2.2.1⟩
    · exact ih cap hct
  | skip _ _ ih => exact ih

/-! Lemmas about the conversion layer. -/

/-- When the element conversion succeeds everywhere, `mapOpt` is `map`. -/
theorem mapOpt_eq_map {α β : Type} {f : α → Option β} {g : α → β} :
    ∀ {l : List α}, (∀ a ∈ l, f a = some (g a)) → mapOpt f l = some (l.map g) := by
  intro l
  induction l with
  | nil => intro _; rfl
  | cons a as ih =>
    intro h
    simp only [mapOpt, h a (by simp), ih (fun x hx => h x (by simp [hx])), List.map]

/-- A successful `mapOpt` preserves length. -/
theorem mapOpt_length {α β : Type} {f : α → Option β} :
    ∀ {l : List α} {bs : List β}, mapOpt f l = some bs → bs.length = l.length := by
  intro l
  induction l with
  | nil =>
    intro bs h
    simp only [mapOpt, Option.some.injEq] at h
    subst h
    rfl
  | cons a as ih =>
    intro bs h
    simp only [mapOpt] at h
    cases hfa : f a <;> rw [hfa] at h
    · cases h
    · cases hma : mapOpt f as <;> rw [hma] at h
      · cases h
      · simp only [Option.some.injEq] at h
        subst h
        simp [ih hma]

/-- Every element of a successful `mapOpt` result is the image of some input
element. -/
theorem mapOpt_mem {α β : Type} {f : α → Option β} :
    ∀ {l : List α} {bs : List β}, mapOpt f l = some bs →
      ∀ b ∈ bs, ∃ a ∈ l, f a = some b := by
  intro l
  induction l with
  | nil =>
    intro bs h
    simp only [mapOpt, Option.some.injEq] at h
    subst h
    intro b hb
    cases hb
  | cons a as ih =>
    intro bs h
    simp only [mapOpt] at h
    cases hfa : f a <;> rw [hfa] at h
    · cases h
    · cases hma : mapOpt f as <;> rw [hma] at h
      · cases h
      · simp only [Option.some.injEq] at h
        subst h
        intro b hb
        rcases List.mem_cons.mp hb with hbeq | hbt
        · exact ⟨a, by simp, by rw [hfa, hbeq]⟩
        · obtain ⟨x, hx, hfx⟩ := ih hma b hbt
          exact ⟨x, by simp [hx], hfx⟩

/-- The parser succeeds exactly when all three conversion passes succeed, and
then returns their results. -/
theorem parse_eq_some_iff {data : List Char} {s : List Nat} {e r : List ℚ} :
    parse_benchmark_log data = some (s, e, r) ↔
      mapOpt parseInt (rawSizes data) = some s ∧
      mapOpt parseFloat (rawElapsed data) = some e ∧
      mapOpt parseFloat (rawRate data) = some r := by
  unfold parse_benchmark_log
  cases h1 : mapOpt parseInt (rawSizes data) <;>
    cases h2 : mapOpt parseFloat (rawElapsed data) <;>
      cases h3 : mapOpt parseFloat (rawRate data) <;>
        simp

/-- The parser fails exactly when one of the three conversion passes fails. -/
theorem parse_eq_none_iff {data : List Char} :
    parse_benchmark_log data = none ↔
      mapOpt parseInt (rawSizes data) = none ∨
      mapOpt parseFloat (rawElapsed data) = none ∨
      mapOpt parseFloat (rawRate data) = none := by
  unfold parse_benchmark_log
  cases h1 : mapOpt parseInt (rawSizes data) <;>
    cases h2 : mapOpt parseFloat (rawElapsed data) <;>
      cases h3 : mapOpt parseFloat (rawRate data) <;>
        simp

/-- A value produced by the `float` model is non-negative. -/
theorem parseFloat_nonneg {s : List Char} {q : ℚ} (h : parseFloat s = some q) :
    0 ≤ q := by
  unfold parseFloat at h
  split at h
  · injection h with h
    subst h
    unfold decVal
    positivity
  · cases h

/-- The `int` model succeeds on every non-empty digit string. -/
theorem parseInt_of_digits {s : List Char} (h1 : s ≠ []) (h2 : ∀ c ∈ s, c.isDigit = true) :
    parseInt s = some (strToNat s) := by
  unfold parseInt
  rw [if_pos ⟨h1, List.all_eq_true.mpr h2⟩]

/-! Concrete log texts used to settle the example-based claims. -/

/-- The two-line example file of the spec. -/
def specText : List Char :=
  "size=10 elapsed: 1.5 rate: 6.7\nsize=20 elapsed: 3.0 rate: 6.6".toList

/-- A file with a `size=` token but no `elapsed:`/`rate:` tokens. -/
def sizeOnlyText : List Char := "size=10".toList

/-- A file whose `rate:` capture `...` is not a valid number. -/
def dotsText : List Char := "rate: ...".toList

/-- A file with a `rate:` value in scientific notation. -/
def sciText : List Char := "rate: 1.5e3".toList

/-- A file with a `size=` value with leading zeros. -/
def leadZeroText : List Char := "size=007".toList

/-- A file with a `rate:` value in plain decimal form. -/
def rateDecText : List Char := "rate: 6.7".toList

/-! Evaluation of the `float` model on the concrete captures above. -/

/-- The capture `1.5` denotes three halves. -/
theorem parseFloat15 : parseFloat ['1', '.', '5'] = some (3/2) := by
  have h : decVal ['1', '.', '5'] = 3/2 := by
    norm_num [decVal, show intPart ['1', '.', '5'] = ['1'] from by decide,
      show fracPart ['1', '.', '5'] = ['5'] from by decide,
      show strToNat ['1'] = 1 from rfl, show strToNat ['5'] = 5 from rfl]
  simp +decide [parseFloat, h]

/-- The capture `3.0` denotes three. -/
theorem parseFloat30 : parseFloat ['3', '.', '0'] = some 3 := by
  have h : decVal ['3', '.', '0'] = 3 := by
    norm_num [decVal, show intPart ['3', '.', '0'] = ['3'] from by decide,
      show fracPart ['3', '.', '0'] = ['0'] from by decide,
      show strToNat ['3'] = 3 from rfl, show strToNat ['0'] = 0 from rfl]
  simp +decide [parseFloat, h]

/-- The capture `6.7` denotes sixty-seven tenths. -/
theorem parseFloat67 : parseFloat ['6', '.', '7'] = some (67/10) := by
  have h : decVal ['6', '.', '7'] = 67/10 := by
    norm_num [decVal, show intPart ['6', '.', '7'] = ['6'] from by decide,
      show fracPart ['6', '.', '7'] = ['7'] from by decide,
      show strToNat ['6'] = 6 from rfl, show strToNat ['7'] = 7 from rfl]
  simp +decide [parseFloat, h]

/-- The capture `6.6` denotes thirty-three fifths. -/
theorem parseFloat66 : parseFloat ['6', '.', '6'] = some (33/5) := by
  have h : decVal ['6', '.', '6'] = 33/5 := by
    norm_num [decVal, show intPart ['6', '.', '6'] = ['6'] from by decide,
      show fracPart ['6', '.', '6'] = ['6'] from by decide,
      show strToNat ['6'] = 6 from rfl]
  simp +decide [parseFloat, h]

/-- Full evaluation of the parser on the spec's two-line example. -/
theorem parse_specText_eval :
    parse_benchmark_log specText = some ([10, 20], [3/2, 3], [67/10, 33/5]) := by
  rw [parse_eq_some_iff]
  refine ⟨by decide, ?_, ?_⟩
  · rw [show rawElapsed specText = [['1', '.', '5'], ['3', '.', '0']] from by decide]
    simp [mapOpt, parseFloat15, parseFloat30]
  · rw [show rawRate specText = [['6', '.', '7'], ['6', '.', '6']] from by decide]
    simp [mapOpt, parseFloat67, parseFloat66]

/-- Full evaluation of the parser on the scientific-notation file: the match
of `[\d.]+` stops before the `e`, so only `1.5` is captured. -/
theorem parse_sciText_eval :
    parse_benchmark_log sciText = some ([], [], [3/2]) := by
  rw [parse_eq_some_iff]
  refine ⟨by decide, by decide, ?_⟩
  rw [show rawRate sciText = [['1', '.', '5']] from by decide]
  simp [mapOpt, parseFloat15]

/-- Full evaluation of the parser on the plain-decimal rate file. -/
theorem parse_rateDecText_eval :
    parse_benchmark_log rateDecText = some ([], [], [67/10]) := by
  rw [parse_eq_some_iff]
  refine ⟨by decide, by decide, ?_⟩
  rw [show rawRate rateDecText = [['6', '.', '7']] from by decide]
  simp [mapOpt, parseFloat67]

/-! The claims. -/

/-- C1: for every file text, `parse_benchmark_log` returns the three
sequences obtained by collecting, in order of appearance, the non-overlapping
matches of `size=(\d+)`, `elapsed: ([\d.]+)` and `rate: ([\d.]+)` over the
whole text (the declarative `Findall` semantics), with the size captures
converted to integers and the elapsed and rate captures converted to
floating-point numbers. -/
theorem parse_collects_pattern_matches (data : List Char) :
    Findall ("size=".toList) Char.isDigit data (rawSizes data) ∧
    Findall ("elapsed: ".toList) isDigitDot data (rawElapsed data) ∧
    Findall ("rate: ".toList) isDigitDot data (rawRate data) ∧
    ∀ s e r, parse_benchmark_log data = some (s, e, r) →
      mapOpt parseInt (rawSizes data) = some s ∧
      mapOpt parseFloat (rawElapsed data) = some e ∧
      mapOpt parseFloat (rawRate data) = some r :=
  ⟨findall_sound _ _ data, findall_sound _ _ data, findall_sound _ _ data,
    fun _ _ _ h => parse_eq_some_iff.mp h⟩

/-- Witness for C1 at the file `size=10`. -/
theorem parse_collects_pattern_matches_witness :
    Findall ("size=".toList) Char.isDigit sizeOnlyText (rawSizes sizeOnlyText) ∧
    mapOpt parseInt (rawSizes sizeOnlyText) = some [10] :=
  ⟨(parse_collects_pattern_matches sizeOnlyText).1,
    ((parse_collects_pattern_matches sizeOnlyText).2.2.2 [10] [] [] (by decide)).1⟩

/-- C2: on the file consisting of the lines `size=10 elapsed: 1.5 rate: 6.7`
and `size=20 elapsed: 3.0 rate: 6.6`, the parser returns sizes `[10, 20]`,
elapsed `[1.5, 3.0]` and rates `[6.7, 6.6]`. -/
theorem parse_two_line_example :
    parse_benchmark_log specText = some ([10, 20], [1.5, 3.0], [6.7, 6.6]) := by
  rw [parse_specText_eval]
  norm_num

/-- C3: on the empty file, all three returned sequences are empty. -/
theorem parse_empty_file : parse_benchmark_log ("".toList) = some ([], [], []) := by
  decide

/-- C4: whenever parsing succeeds, the length of each returned sequence
equals the number of matches of its own pattern in the text; and no relation
among the three lengths is guaranteed (the file `size=10` parses to lengths
1, 0, 0). -/
theorem output_lengths_are_match_counts (data : List Char) (s : List Nat)
    (e r : List ℚ) (h : parse_benchmark_log data = some (s, e, r)) :
    s.length = (rawSizes data).length ∧
    e.length = (rawElapsed data).length ∧
    r.length = (rawRate data).length ∧
    parse_benchmark_log sizeOnlyText = some ([10], [], []) := by
  obtain ⟨h1, h2, h3⟩ := parse_eq_some_iff.mp h
  exact ⟨mapOpt_length h1, mapOpt_length h2, mapOpt_length h3, by decide⟩

/-- Witness for C4 at the spec's two-line example. -/
theorem output_lengths_are_match_counts_witness :
    ([10, 20] : List Nat).length = (rawSizes specText).length ∧
    ([3/2, 3] : List ℚ).length = (rawElapsed specText).length ∧
    ([67/10, 33/5] : List ℚ).length = (rawRate specText).length ∧
    parse_benchmark_log sizeOnlyText = some ([10], [], []) :=
  output_lengths_are_match_counts specText [10, 20] [3/2, 3] [67/10, 33/5]
    parse_specText_eval

/-- C5: on a file with a `size=` token but no `elapsed:`/`rate:` token, the
parser returns sequences of unequal lengths: sizes non-empty, elapsed and
rate empty. -/
theorem parse_size_only_unequal_lengths :
    ∃ s e r, parse_benchmark_log sizeOnlyText = some (s, e, r) ∧
      s ≠ [] ∧ e = [] ∧ r = [] ∧ s.length ≠ e.length ∧ s.length ≠ r.length :=
  ⟨[10], [], [], by decide, by decide, rfl, rfl, by decide, by decide⟩

/-- C6 counterexample: on the file `rate: 1.5e3`, the claim says the rate
parses to the equivalent floating-point value 1500, but the parser returns
`[1.5]`: the character class `[\d.]+` stops before the exponent marker. -/
theorem scientific_rate_counterexample :
    parse_benchmark_log sciText = some ([], [], [1.5]) ∧
    parse_benchmark_log sciText ≠ some ([], [], [1500]) := by
  have h : parse_benchmark_log sciText = some ([], [], [3/2]) := parse_sciText_eval
  constructor
  · rw [h]; norm_num
  · rw [h]; simp; norm_num

/-- C6 amended: `size=007` parses to the integer 7 and a decimal `rate:`
value parses to the equivalent value, but a scientific-notation `rate:` value
such as `1.5e3` is captured only up to the exponent marker and parses to its
mantissa `1.5`, not to the denoted value 1500. -/
theorem numeric_conversion_amended :
    parse_benchmark_log leadZeroText = some ([7], [], []) ∧
    parse_benchmark_log rateDecText = some ([], [], [6.7]) ∧
    parse_benchmark_log sciText = some ([], [], [1.5]) ∧ (1.5 : ℚ) ≠ 1500 := by
  refine ⟨by decide, ?_, ?_, by norm_num⟩
  · rw [parse_rateDecText_eval]; norm_num
  · rw [parse_sciText_eval]; norm_num

/-- C7: parsing is a pure function of the file contents — two runs on equal
contents return identical triples. -/
theorem parse_deterministic (d1 d2 : List Char) (h : d1 = d2) :
    parse_benchmark_log d1 = parse_benchmark_log d2 := by
  rw [h]

/-- Witness for C7 at the spec's two-line example. -/
theorem parse_deterministic_witness :
    parse_benchmark_log specText = parse_benchmark_log specText :=
  parse_deterministic specText specText rfl

/-- C8: on the file `rate: ...`, the `rate:` pattern captures `...`, which is
not a valid number, and the numeric conversion fails; nothing inside the
parser catches it, so the parser returns no result. -/
theorem malformed_rate_capture_fails :
    rawRate dotsText = [['.', '.', '.']] ∧
    parseFloat ['.', '.', '.'] = none ∧
    parse_benchmark_log dotsText = none := by
  decide

/-- C9: the integer conversion of the sizes can never fail: every capture of
`size=(\d+)` is a non-empty digit string, so `int` succeeds on all of them;
a conversion failure can only come from the elapsed or rate captures. -/
theorem size_conversion_never_fails (data : List Char) :
    mapOpt parseInt (rawSizes data) = some ((rawSizes data).map strToNat) ∧
    (parse_benchmark_log data = none →
      mapOpt parseFloat (rawElapsed data) = none ∨
      mapOpt parseFloat (rawRate data) = none) := by
  have hcaps := findall_caps (findall_sound ("size=".toList) Char.isDigit data)
  have hmap : mapOpt parseInt (rawSizes data) = some ((rawSizes data).map strToNat) :=
    mapOpt_eq_map (fun cap hc => parseInt_of_digits (hcaps cap hc).1 (hcaps cap hc).2)
  refine ⟨hmap, fun h => ?_⟩
  rcases parse_eq_none_iff.mp h with h1 | h2 | h3
  · rw [hmap] at h1; cases h1
  · exact Or.inl h2
  · exact Or.inr h3

/-- Witness for C9 at the file `rate: ...`, where parsing does fail. -/
theorem size_conversion_never_fails_witness :
    mapOpt parseInt (rawSizes dotsText) = some ((rawSizes dotsText).map strToNat) ∧
    (mapOpt parseFloat (rawElapsed dotsText) = none ∨
      mapOpt parseFloat (rawRate dotsText) = none) :=
  ⟨(size_conversion_never_fails dotsText).1,
    (size_conversion_never_fails dotsText).2 (by decide)⟩

/-- C10: whenever parsing succeeds, every returned value is non-negative:
the patterns admit no sign, so each size is a natural number and each
elapsed/rate value is a non-negative number. -/
theorem parsed_values_nonneg (data : List Char) (s : List Nat) (e r : List ℚ)
    (h : parse_benchmark_log data = some (s, e, r)) :
    (∀ n ∈ s, 0 ≤ n) ∧ (∀ q ∈ e, 0 ≤ q) ∧ (∀ q ∈ r, 0 ≤ q) := by
  obtain ⟨_, h2, h3⟩ := parse_eq_some_iff.mp h
  refine ⟨fun n _ => Nat.zero_le n, fun q hq => ?_, fun q hq => ?_⟩
  · obtain ⟨a, _, hfa⟩ := mapOpt_mem h2 q hq
    exact parseFloat_nonneg hfa
  · obtain ⟨a, _, hfa⟩ := mapOpt_mem h3 q hq
    exact parseFloat_nonneg hfa

/-- Witness for C10 at the spec's two-line example, projected to concrete
elements of the returned sequences. -/
theorem parsed_values_nonneg_witness : (0 : ℚ) ≤ 3/2 ∧ (0 : ℚ) ≤ 33/5 :=
  ⟨(parsed_values_nonneg specText [10, 20] [3/2, 3] [67/10, 33/5]
      parse_specText_eval).2.1 (3/2) (by simp),
   (parsed_values_nonneg specText [10, 20] [3/2, 3] [67/10, 33/5]
      parse_specText_eval).2.2 (33/5) (by simp)⟩

end BenchLog
